import Mathlib

/-!
Verification development for `memprof_plotter` (src/memprof_plotter/plotter.py).

The Python program aggregates memory-profiling samples from CI runs into
per-test time series and warns when the latest run's peak memory exceeds
the historical average by more than 20%.  Floating point values are
modelled by `ℚ`, Python dicts by insertion-ordered association lists,
and Python exceptions by `Except Unit`.
-/

namespace MemprofPlotter

/-! ### Association lists modelling Python dicts

Python dicts preserve insertion order; assignment of an existing key keeps
its position, assignment of a fresh key appends at the end. -/

/-- Python dict assignment `m[k] = v`. -/
def dictSet {α β : Type} [DecidableEq α] : List (α × β) → α → β → List (α × β)
  | [], k, v => [(k, v)]
  | (k', v') :: rest, k, v =>
    if k' = k then (k, v) :: rest else (k', v') :: dictSet rest k v

/-- Python dict lookup `m[k]`, `none` modelling a `KeyError`. -/
def dictGet {α β : Type} [DecidableEq α] : List (α × β) → α → Option β
  | [], _ => none
  | (k', v') :: rest, k => if k' = k then some v' else dictGet rest k

/-- Lookup with a default value (models `defaultdict` reads). -/
def dictGetD {α β : Type} [DecidableEq α] (m : List (α × β)) (k : α) (d : β) : β :=
  (dictGet m k).getD d

theorem dictGet_dictSet_self {α β : Type} [DecidableEq α]
    (m : List (α × β)) (k : α) (v : β) : dictGet (dictSet m k v) k = some v := by
  induction m with
  | nil => simp [dictSet, dictGet]
  | cons p rest ih =>
    obtain ⟨k', v'⟩ := p
    by_cases h : k' = k
    · simp [dictSet, dictGet, h]
    · simp [dictSet, dictGet, h, ih]

theorem dictGet_dictSet_ne {α β : Type} [DecidableEq α]
    (m : List (α × β)) (k k' : α) (v : β) (h : k' ≠ k) :
    dictGet (dictSet m k v) k' = dictGet m k' := by
  induction m with
  | nil => simp [dictSet, dictGet, Ne.symm h]
  | cons p rest ih =>
    obtain ⟨k₀, v₀⟩ := p
    by_cases hk : k₀ = k
    · subst hk
      simp [dictSet, dictGet, Ne.symm h]
    · simp only [dictSet, if_neg hk, dictGet]
      by_cases hk' : k₀ = k'
      · simp [hk']
      · simp [hk', ih]

theorem dictGet_isSome_of_mem {α β : Type} [DecidableEq α]
    (m : List (α × β)) (k : α) (h : k ∈ m.map Prod.fst) :
    ∃ v, dictGet m k = some v := by
  induction m with
  | nil => simp at h
  | cons p rest ih =>
    obtain ⟨k', v'⟩ := p
    by_cases hk : k' = k
    · exact ⟨v', by simp [dictGet, hk]⟩
    · have : k ∈ rest.map Prod.fst := by
        simpa [hk, Ne.symm hk] using h
      obtain ⟨v, hv⟩ := ih this
      exact ⟨v, by simp [dictGet, hk, hv]⟩

theorem dictGet_map_snd {α β γ : Type} [DecidableEq α]
    (m : List (α × β)) (f : β → γ) (k : α) :
    dictGet (m.map fun p => (p.1, f p.2)) k = (dictGet m k).map f := by
  induction m with
  | nil => simp [dictGet]
  | cons p rest ih =>
    obtain ⟨k', v'⟩ := p
    by_cases hk : k' = k
    · simp [dictGet, hk]
    · simp [dictGet, hk, ih]

theorem dictSet_length_le {α β : Type} [DecidableEq α]
    (m : List (α × β)) (k : α) (v : β) :
    (dictSet m k v).length ≤ m.length + 1 := by
  induction m with
  | nil => simp [dictSet]
  | cons p rest ih =>
    obtain ⟨k', v'⟩ := p
    by_cases hk : k' = k
    · simp [dictSet, hk]
    · simp only [dictSet, if_neg hk, List.length_cons]
      omega

theorem mem_dictSet {α β : Type} [DecidableEq α]
    (m : List (α × β)) (k : α) (v : β) (x : α × β) (h : x ∈ dictSet m k v) :
    x ∈ m ∨ x = (k, v) := by
  induction m with
  | nil => simp [dictSet] at h; simp [h]
  | cons p rest ih =>
    obtain ⟨k', v'⟩ := p
    by_cases hk : k' = k
    · simp only [dictSet, if_pos hk] at h
      rcases List.mem_cons.mp h with h | h
      · right; exact h
      · left; exact List.mem_cons_of_mem _ h
    · simp only [dictSet, if_neg hk] at h
      rcases List.mem_cons.mp h with h | h
      · left; exact h ▸ List.mem_cons_self _ _
      · rcases ih h with h | h
        · left; exact List.mem_cons_of_mem _ h
        · right; exact h

/-! ### Generic max-fold lemmas -/

theorem foldr_max_pull {α : Type} [LinearOrder α] (a b : α) :
    ∀ l : List α, l.foldr max (max a b) = max a (l.foldr max b)
  | [] => rfl
  | x :: xs => by
    simp only [List.foldr_cons, foldr_max_pull a b xs]
    rw [max_left_comm]

theorem foldl_max_eq_foldr {α : Type} [LinearOrder α] :
    ∀ (l : List α) (x : α), l.foldl max x = l.foldr max x
  | [], _ => rfl
  | y :: ys, x => by
    simp only [List.foldl_cons, List.foldr_cons]
    rw [foldl_max_eq_foldr ys (max x y), max_comm x y, foldr_max_pull]

theorem foldr_max_mem {α : Type} [LinearOrder α] :
    ∀ (l : List α) (x : α), l.foldr max x = x ∨ l.foldr max x ∈ l
  | [], _ => Or.inl rfl
  | y :: ys, x => by
    simp only [List.foldr_cons]
    rcases max_choice y (ys.foldr max x) with h | h
    · right; rw [h]; exact List.mem_cons_self _ _
    · rw [h]
      rcases foldr_max_mem ys x with h' | h'
      · left; exact h'
      · right; exact List.mem_cons_of_mem _ h'

/-! ### Anomaly detector (`check_memory_anomaly`)

The Python function receives, for one test identity, two dicts indexed by
run number: `rss` (memory series in GB) and `times` (relative-time series
in seconds).  It prints a GitHub warning annotation when the latest run's
peak memory exceeds 1.2 times the average peak of the earlier runs; the
warning is modelled by a `Finding` value. -/

structure Finding where
  category : String
  testName : String
  runId : Nat
  peak : ℚ
  avgPrior : ℚ
deriving DecidableEq

/-- Python `max(l)` on a possibly-empty list; `none` models `ValueError`. -/
def listMax : List ℚ → Option ℚ
  | [] => none
  | x :: xs => some (xs.foldl max x)

/-- Python `max(tl or [0.0])`: an empty series counts as maximum `0`. -/
def maxOrDefault : List ℚ → ℚ
  | [] => 0
  | x :: xs => xs.foldl max x

/-- Python `max(l)` over run numbers; `none` models `ValueError`. -/
def natMax : List Nat → Option Nat
  | [] => none
  | x :: xs => some (xs.foldl max x)

/-- Python `{i: max(rl) for i, rl in rss.items()}`; `none` models the
`ValueError` raised when some series is empty. -/
def maxMems : List (Nat × List ℚ) → Option (List (Nat × ℚ))
  | [] => some []
  | (i, rl) :: rest =>
    match listMax rl, maxMems rest with
    | some m, some ms => some ((i, m) :: ms)
    | _, _ => none

/-- Shallow embedding of `check_memory_anomaly` (plotter.py lines 124-144).
`.error ()` models an uncaught Python exception, `.ok none` a silent
return, `.ok (some f)` the printed warning annotation. -/
def check_memory_anomaly (category testName : String)
    (rss times : List (Nat × List ℚ)) : Except Unit (Option Finding) :=
  if rss.length = 1 then .ok none
  else if times.any (fun p => maxOrDefault p.2 ≤ 60) then .ok none
  else
    match maxMems rss with
    | none => .error ()
    | some max_mems =>
      match natMax (max_mems.map Prod.fst) with
      | none => .error ()
      | some latest_run_no =>
        let priorSum : ℚ :=
          ((max_mems.filter fun p => p.1 ≠ latest_run_no).map Prod.snd).sum
        if max_mems.length = 1 then .error ()
        else
          let avg_mem : ℚ := priorSum / ((max_mems.length : ℚ) - 1)
          match dictGet max_mems latest_run_no with
          | none => .error ()
          | some peak =>
            .ok (if peak > 1.2 * avg_mem then
                  some ⟨category, testName, latest_run_no, peak, avg_mem⟩
                 else none)

/-- `true` exactly when the detector printed a warning. -/
def emitsFinding : Except Unit (Option Finding) → Bool
  | .ok (some _) => true
  | _ => false

instance {ε α : Type} [DecidableEq ε] [DecidableEq α] : DecidableEq (Except ε α)
  | .error e, .error e' => decidable_of_iff (e = e') (by simp)
  | .error _, .ok _ => isFalse (by simp)
  | .ok _, .error _ => isFalse (by simp)
  | .ok a, .ok a' => decidable_of_iff (a = a') (by simp)

/-! ### Aggregated per-identity input

In `main`, `d_times[k]` and `d_rss[k]` are populated in lockstep: for each
run they are created together and appended to together, so per run the two
lists have equal length.  An aggregated input for one test identity is
therefore a mapping run-number ↦ list of (relative_time, memory) pairs. -/

abbrev Series := List (ℚ × ℚ)

abbrev AggInput := List (Nat × Series)

def timesOf (a : AggInput) : List (Nat × List ℚ) :=
  a.map fun p => (p.1, p.2.map Prod.fst)

def rssOf (a : AggInput) : List (Nat × List ℚ) :=
  a.map fun p => (p.1, p.2.map Prod.snd)

/-- The detector as called from `main` on one identity's aggregated data. -/
def runCheck (category testName : String) (a : AggInput) :
    Except Unit (Option Finding) :=
  check_memory_anomaly category testName (rssOf a) (timesOf a)

/-! ### Claims C2, C4: the eligibility gate blocks findings -/

theorem check_short_series_none (category testName : String)
    (rss times : List (Nat × List ℚ))
    (h : ∃ p ∈ times, maxOrDefault p.2 ≤ 60) :
    check_memory_anomaly category testName rss times = .ok none := by
  unfold check_memory_anomaly
  by_cases h1 : rss.length = 1
  · rw [if_pos h1]
  · have hany : (times.any fun p => maxOrDefault p.2 ≤ 60) = true := by
      rw [List.any_eq_true]
      obtain ⟨p, hp, hle⟩ := h
      exact ⟨p, hp, by simpa using hle⟩
    rw [if_neg h1, if_pos hany]

/-- C2: a run whose series has maximum relative_time at most 60 seconds
(an empty series counting as maximum 0) makes the detector emit no
finding, whatever the memory values are. -/
theorem short_run_blocks_finding (category testName : String)
    (rss times : List (Nat × List ℚ))
    (h : ∃ p ∈ times, maxOrDefault p.2 ≤ 60) :
    check_memory_anomaly category testName rss times = .ok none :=
  check_short_series_none category testName rss times h

theorem short_run_blocks_finding_witness :
    (∃ p ∈ [((1 : Nat), [(30 : ℚ)]), (2, [70]), (3, [90])],
        maxOrDefault p.2 ≤ 60) ∧
    check_memory_anomaly "cat" "t" [(1, [5]), (2, [5]), (3, [1000])]
        [(1, [30]), (2, [70]), (3, [90])] = .ok none :=
  ⟨by decide, short_run_blocks_finding _ _ _ _ (by decide)⟩

theorem exists_empty_series (a : AggInput) (h2 : 2 ≤ a.length)
    (h : (a.filter fun p => p.2 ≠ []).length ≤ 1) : ∃ p ∈ a, p.2 = [] := by
  by_contra hc
  push_neg at hc
  have hall : a.filter (fun p => p.2 ≠ []) = a :=
    List.filter_eq_self.mpr (fun p hp => by simpa using hc p hp)
  rw [hall] at h
  omega

/-- C4: when at most one run has a non-empty series (in particular when
there is only one run in total), the detector never emits a finding. -/
theorem insufficient_history_no_finding (category testName : String)
    (a : AggInput) (h : (a.filter fun p => p.2 ≠ []).length ≤ 1) :
    emitsFinding (runCheck category testName a) = false := by
  match a with
  | [] => rfl
  | [x] => rfl
  | x :: y :: rest =>
    obtain ⟨p, hp, hpe⟩ :=
      exists_empty_series (x :: y :: rest) (by simp) h
    have hmem : (p.1, ([] : List ℚ)) ∈ timesOf (x :: y :: rest) := by
      simp only [timesOf, List.mem_map]
      exact ⟨p, hp, by simp [hpe]⟩
    have hany : ((timesOf (x :: y :: rest)).any
        fun q => maxOrDefault q.2 ≤ 60) = true := by
      rw [List.any_eq_true]
      refine ⟨(p.1, []), hmem, ?_⟩
      simp only [maxOrDefault, decide_eq_true_eq]
      norm_num
    have hlen : ¬ ((rssOf (x :: y :: rest)).length = 1) := by
      simp [rssOf]
    unfold runCheck check_memory_anomaly
    rw [if_neg hlen, if_pos hany]
    rfl

theorem insufficient_history_no_finding_witness :
    (([((7 : Nat), [((10 : ℚ), (99 : ℚ))])] : AggInput).filter
        (fun p => p.2 ≠ [])).length ≤ 1 ∧
    emitsFinding (runCheck "cat" "t" [(7, [(10, 99)])]) = false :=
  ⟨by decide, insufficient_history_no_finding "cat" "t" _ (by decide)⟩

/-! ### Claim C3: totality of the detector -/

/-- C3 counterexample: on the empty mapping (zero runs) the detector does
not complete normally — `max(max_mems.keys())` raises `ValueError` — so
the claim that it completes for any number of runs fails. -/
theorem detector_errors_on_empty_input :
    runCheck "category" "test" [] = .error () := rfl

/-! ### Specification-side definitions for the decision rule (C1)

These render §4.2 of the design document: `peak(run)` is the maximum
memory value of the run's series, `latest` the numerically greatest run
identifier, `avg_prior` the arithmetic mean of the peaks of the other
runs. -/

/-- Spec: the maximum memory value of a series (0 for an empty series). -/
def spec_peak (s : Series) : ℚ :=
  match s.map Prod.snd with
  | [] => 0
  | m :: ms => ms.foldr max m

/-- Spec: the numerically greatest run identifier in the mapping. -/
def spec_latest (a : AggInput) : Nat :=
  (a.map Prod.fst).foldr max 0

/-- The series the mapping associates with a run identifier. -/
def spec_runSeries (a : AggInput) (r : Nat) : Series :=
  dictGetD a r []

/-- Spec: the peak memory of the latest run. -/
def spec_peakLatest (a : AggInput) : ℚ :=
  spec_peak (spec_runSeries a (spec_latest a))

/-- Spec: all runs except the latest. -/
def spec_priorRuns (a : AggInput) : AggInput :=
  a.filter fun p => p.1 ≠ spec_latest a

/-- Spec: the arithmetic mean of the peaks of the prior runs. -/
def spec_avgPrior (a : AggInput) : ℚ :=
  ((spec_priorRuns a).map fun p => spec_peak p.2).sum /
    ((spec_priorRuns a).length : ℚ)

theorem listMax_eq_spec_peak (s : Series) (h : s ≠ []) :
    listMax (s.map Prod.snd) = some (spec_peak s) := by
  cases hsm : s.map Prod.snd with
  | nil => exact absurd (List.map_eq_nil_iff.mp hsm) h
  | cons m ms =>
    simp only [listMax, spec_peak, hsm]
    rw [foldl_max_eq_foldr]

theorem maxMems_rssOf (a : AggInput) (h : ∀ p ∈ a, p.2 ≠ []) :
    maxMems (rssOf a) = some (a.map fun p => (p.1, spec_peak p.2)) := by
  induction a with
  | nil => rfl
  | cons p rest ih =>
    obtain ⟨i, s⟩ := p
    have hs : s ≠ [] := h (i, s) (List.mem_cons_self _ _)
    have ih' := ih fun q hq => h q (List.mem_cons_of_mem _ hq)
    simp only [rssOf, List.map_cons] at ih' ⊢
    simp only [maxMems, listMax_eq_spec_peak s hs, ih']

theorem natMax_eq (l : List Nat) (h : l ≠ []) :
    natMax l = some (l.foldr max 0) := by
  cases l with
  | nil => exact absurd rfl h
  | cons x xs =>
    simp only [natMax, List.foldr_cons]
    rw [foldl_max_eq_foldr]
    congr 1
    have hpull := foldr_max_pull x 0 xs
    rw [show max x 0 = x from max_eq_left (Nat.zero_le x)] at hpull
    exact hpull

theorem foldr_max_zero_mem : ∀ l : List Nat, l ≠ [] → l.foldr max 0 ∈ l
  | [x], _ => by
    simp only [List.foldr_cons, List.foldr_nil]
    rw [show max x 0 = x from max_eq_left (Nat.zero_le x)]
    exact List.mem_cons_self _ _
  | x :: y :: ys, _ => by
    simp only [List.foldr_cons]
    rcases max_choice x ((y :: ys).foldr max 0) with h | h
    · simp only [List.foldr_cons] at h
      rw [h]; exact List.mem_cons_self _ _
    · simp only [List.foldr_cons] at h
      rw [h]
      exact List.mem_cons_of_mem _
        (foldr_max_zero_mem (y :: ys) (List.cons_ne_nil _ _))

theorem spec_latest_mem (a : AggInput) (h : a ≠ []) :
    spec_latest a ∈ a.map Prod.fst :=
  foldr_max_zero_mem _ (by simpa using h)

theorem filter_map_fst {β γ : Type} (a : List (Nat × β)) (f : β → γ)
    (q : Nat → Bool) :
    (a.map fun p => (p.1, f p.2)).filter (fun p => q p.1) =
      (a.filter fun p => q p.1).map fun p => (p.1, f p.2) := by
  induction a with
  | nil => rfl
  | cons p rest ih =>
    by_cases h : q p.1 = true
    · simp [List.filter_cons, h, ih]
    · simp only [Bool.not_eq_true] at h
      simp [List.filter_cons, h, ih]

theorem filter_ne_length (a : AggInput) (k : Nat)
    (hnd : (a.map Prod.fst).Nodup) (hk : k ∈ a.map Prod.fst) :
    (a.filter fun p => p.1 ≠ k).length = a.length - 1 := by
  induction a with
  | nil => simp at hk
  | cons p rest ih =>
    simp only [List.map_cons, List.nodup_cons] at hnd
    obtain ⟨hp, hrest⟩ := hnd
    by_cases h : p.1 = k
    · subst h
      have hall : rest.filter (fun q => q.1 ≠ p.1) = rest := by
        rw [List.filter_eq_self]
        intro q hq
        simp only [decide_eq_true_eq]
        intro hqe
        exact hp (hqe ▸ List.mem_map_of_mem Prod.fst hq)
      rw [List.filter_cons,
        if_neg (by simp : ¬ (decide (p.1 ≠ p.1) = true)), hall]
      simp
    · have hk' : k ∈ rest.map Prod.fst := by
        rw [List.map_cons, List.mem_cons] at hk
        rcases hk with h' | h'
        · exact absurd h'.symm h
        · exact h'
      have hlen : 1 ≤ rest.length := by
        cases rest with
        | nil => simp at hk'
        | cons z zs => simp
      have hrec := ih hrest hk'
      rw [List.filter_cons, if_pos (by simpa using h)]
      simp only [List.length_cons]
      omega

/-- Under the eligibility gate the detector's result is exactly the
spec-side decision rule. -/
theorem anomaly_decision (category testName : String) (a : AggInput)
    (hnd : (a.map Prod.fst).Nodup)
    (h2 : 2 ≤ a.length)
    (hne : ∀ p ∈ a, p.2 ≠ [])
    (hdur : ∀ p ∈ a, 60 < maxOrDefault (p.2.map Prod.fst)) :
    runCheck category testName a =
      .ok (if spec_peakLatest a > 1.2 * spec_avgPrior a then
            some ⟨category, testName, spec_latest a, spec_peakLatest a,
                  spec_avgPrior a⟩
           else none) := by
  have hanil : a ≠ [] := by
    intro hnil
    rw [hnil] at h2
    simp at h2
  have hlen1 : ¬ ((rssOf a).length = 1) := by
    simp only [rssOf, List.length_map]
    omega
  have hany : ((timesOf a).any fun p => maxOrDefault p.2 ≤ 60) = false := by
    rw [List.any_eq_false]
    intro p hp
    simp only [timesOf, List.mem_map] at hp
    obtain ⟨q, hq, rfl⟩ := hp
    simp only [decide_eq_true_eq, not_le]
    exact hdur q hq
  have hmm := maxMems_rssOf a hne
  have hkeys : (a.map fun p => (p.1, spec_peak p.2)).map Prod.fst
      = a.map Prod.fst := by
    simp
  have hnm : natMax ((a.map fun p => (p.1, spec_peak p.2)).map Prod.fst)
      = some (spec_latest a) := by
    rw [hkeys]
    exact natMax_eq _ (by simpa using hanil)
  have hlat_mem : spec_latest a ∈ a.map Prod.fst := spec_latest_mem a hanil
  obtain ⟨s, hs⟩ := dictGet_isSome_of_mem a (spec_latest a) hlat_mem
  have hserie : spec_runSeries a (spec_latest a) = s := by
    simp [spec_runSeries, dictGetD, hs]
  have hlook : dictGet (a.map fun p => (p.1, spec_peak p.2)) (spec_latest a)
      = some (spec_peakLatest a) := by
    rw [dictGet_map_snd, hs]
    simp [spec_peakLatest, hserie]
  have hfilter : ((a.map fun p => (p.1, spec_peak p.2)).filter
      fun p => p.1 ≠ spec_latest a)
      = (spec_priorRuns a).map fun p => (p.1, spec_peak p.2) :=
    filter_map_fst a spec_peak fun n => decide (n ≠ spec_latest a)
  have hplen : (spec_priorRuns a).length = a.length - 1 :=
    filter_ne_length a (spec_latest a) hnd hlat_mem
  have hmaplen : (a.map fun p => (p.1, spec_peak p.2)).length = a.length := by
    simp
  have hlen1' : ¬ ((a.map fun p => (p.1, spec_peak p.2)).length = 1) := by
    rw [hmaplen]
    omega
  have hsum : (((a.map fun p => (p.1, spec_peak p.2)).filter
      fun p => p.1 ≠ spec_latest a).map Prod.snd).sum
      = ((spec_priorRuns a).map fun p => spec_peak p.2).sum := by
    rw [hfilter, List.map_map]
    rfl
  have hden : (((a.map fun p => (p.1, spec_peak p.2)).length : ℚ)) - 1
      = ((spec_priorRuns a).length : ℚ) := by
    rw [hmaplen, hplen, Nat.cast_sub (by omega)]
    norm_num
  unfold runCheck check_memory_anomaly
  rw [if_neg hlen1, hany, if_neg Bool.false_ne_true, hmm]
  simp only [hnm, hlen1', if_false, hlook, hsum, hden, spec_avgPrior]

/-- C1: under the eligibility gate (two or more runs, all series non-empty
with maximum relative_time above 60 s), a finding is emitted iff
`peak(latest) > 1.2 * avg_prior`, with `latest` the numerically greatest
run identifier, and the finding carries `peak(latest)` and `avg_prior`. -/
theorem detector_emits_iff_peak_exceeds (category testName : String)
    (a : AggInput)
    (hnd : (a.map Prod.fst).Nodup)
    (h2 : 2 ≤ a.length)
    (hne : ∀ p ∈ a, p.2 ≠ [])
    (hdur : ∀ p ∈ a, 60 < maxOrDefault (p.2.map Prod.fst)) :
    runCheck category testName a =
      .ok (if spec_peakLatest a > 1.2 * spec_avgPrior a then
            some ⟨category, testName, spec_latest a, spec_peakLatest a,
                  spec_avgPrior a⟩
           else none) :=
  anomaly_decision category testName a hnd h2 hne hdur

def exC1 : AggInput := [(1, [(61, 8)]), (2, [(61, 12)]), (3, [(61, 25)])]

theorem detector_emits_iff_peak_exceeds_witness :
    ((exC1.map Prod.fst).Nodup ∧ 2 ≤ exC1.length ∧
      (∀ p ∈ exC1, p.2 ≠ []) ∧
      ∀ p ∈ exC1, 60 < maxOrDefault (p.2.map Prod.fst)) ∧
    runCheck "cat" "test" exC1 = .ok (some ⟨"cat", "test", 3, 25, 10⟩) := by
  have hlat : spec_latest exC1 = 3 := by decide
  have hpeak : spec_peakLatest exC1 = 25 := rfl
  have hpr : spec_priorRuns exC1 = [(1, [(61, 8)]), (2, [(61, 12)])] := rfl
  have havg : spec_avgPrior exC1 = 10 := by
    rw [spec_avgPrior, hpr]
    norm_num [spec_peak]
  refine ⟨⟨by decide, by decide, by decide, by decide⟩, ?_⟩
  rw [detector_emits_iff_peak_exceeds "cat" "test" exC1
    (by decide) (by decide) (by decide) (by decide),
    hlat, hpeak, havg, if_pos (by norm_num)]

/-- C3 (amended): for every non-empty aggregated mapping — distinct run
keys, times and memory series paired per run — the detector completes
without raising and returns zero or one finding; in particular no
division by zero occurs. -/
theorem detector_total_on_nonempty (category testName : String)
    (a : AggInput) (hnd : (a.map Prod.fst).Nodup) (h : a ≠ []) :
    ∃ o, runCheck category testName a = .ok o := by
  by_cases h1 : a.length = 1
  · refine ⟨none, ?_⟩
    unfold runCheck check_memory_anomaly
    rw [if_pos (by simpa [rssOf] using h1)]
  · by_cases h2 : ∃ p ∈ timesOf a, maxOrDefault p.2 ≤ 60
    · exact ⟨none, check_short_series_none category testName _ _ h2⟩
    · push_neg at h2
      have hdur : ∀ p ∈ a, 60 < maxOrDefault (p.2.map Prod.fst) := by
        intro p hp
        have hm : (p.1, p.2.map Prod.fst) ∈ timesOf a := by
          simp only [timesOf, List.mem_map]
          exact ⟨p, hp, rfl⟩
        exact h2 _ hm
      have hne : ∀ p ∈ a, p.2 ≠ [] := by
        intro p hp hcon
        have := hdur p hp
        rw [hcon] at this
        simp [maxOrDefault] at this
        exact absurd this (by norm_num)
      have hlen : 2 ≤ a.length := by
        have := List.length_pos.mpr h
        omega
      exact ⟨_, anomaly_decision category testName a hnd hlen hne hdur⟩

theorem detector_total_on_nonempty_witness :
    (([((5 : Nat), [((1 : ℚ), (2 : ℚ))])] : AggInput).map Prod.fst).Nodup ∧
    ([((5 : Nat), [((1 : ℚ), (2 : ℚ))])] : AggInput) ≠ [] ∧
    ∃ o, runCheck "c" "t" [(5, [(1, 2)])] = .ok o :=
  ⟨by decide, by decide,
    detector_total_on_nonempty "c" "t" _ (by decide) (by decide)⟩

/-! ### Series aggregation (`main`, plotter.py lines 194-216)

One run contributes a jobs listing (rows `(command, category)`, category
possibly SQL NULL, modelled `Option String`) and either a list of memprof
sample rows `(command, category, relative_time, rss_gb)` or `none` when
the memprof table is missing (`sqlite3.OperationalError`).  The loop body
first registers every listed identity with empty series, then appends the
sample rows in arrival order. -/

abbrev SampleRow := String × Option String × ℚ × ℚ

def SampleRow.cmd (r : SampleRow) : String := r.1
def SampleRow.cat (r : SampleRow) : Option String := r.2.1
def SampleRow.t (r : SampleRow) : ℚ := r.2.2.1
def SampleRow.gb (r : SampleRow) : ℚ := r.2.2.2

/-- Python f-string rendering of an optional value (`None` prints "None"). -/
def pyStr : Option String → String
  | none => "None"
  | some s => s

/-- The composite grouping key `f"{cat}_{cmd}"`. -/
def keyOf (cat : Option String) (cmd : String) : String :=
  pyStr cat ++ "_" ++ cmd

/-- Python `cat or "other"`: `None` and the empty string are falsy. -/
def catLabel : Option String → String
  | none => "other"
  | some s => if s = "" then "other" else s

structure AggState where
  d_cat : List (String × String)
  d_times : List (String × List (Nat × List ℚ))
  d_rss : List (String × List (Nat × List ℚ))
  d_names : List (String × String)
deriving DecidableEq

def initState : AggState := ⟨[], [], [], []⟩

/-- `d_times[key][runid]` (`none` when the inner dict lacks the run). -/
def timesEntry (st : AggState) (key : String) (runid : Nat) :
    Option (List ℚ) :=
  dictGet (dictGetD st.d_times key []) runid

/-- `d_rss[key][runid]`. -/
def rssEntry (st : AggState) (key : String) (runid : Nat) :
    Option (List ℚ) :=
  dictGet (dictGetD st.d_rss key []) runid

/-- One row of the jobs listing (plotter.py lines 203-207). -/
def declareIdentity (runid : Nat) (st : AggState)
    (row : String × Option String) : AggState :=
  let key := keyOf row.2 row.1
  { d_cat := dictSet st.d_cat key (catLabel row.2)
    d_times := dictSet st.d_times key
      (dictSet (dictGetD st.d_times key []) runid [])
    d_rss := dictSet st.d_rss key
      (dictSet (dictGetD st.d_rss key []) runid [])
    d_names := dictSet st.d_names key row.1 }

def sampleKey (row : SampleRow) : String :=
  keyOf (SampleRow.cat row) (SampleRow.cmd row)

/-- One sample row (lines 214-216): appends to `d_times[key][runid]` and
`d_rss[key][runid]`; `.error ()` models the `KeyError` raised when the
run id is absent from the inner (non-default) dict. -/
def addSample (runid : Nat) (st : AggState) (row : SampleRow) :
    Except Unit AggState :=
  let key := sampleKey row
  match dictGet (dictGetD st.d_times key []) runid with
  | none => .error ()
  | some tl =>
    let st1 := { st with
      d_times := dictSet st.d_times key
        (dictSet (dictGetD st.d_times key []) runid
          (tl ++ [SampleRow.t row])) }
    match dictGet (dictGetD st1.d_rss key []) runid with
    | none => .error ()
    | some rl =>
      .ok { st1 with
        d_rss := dictSet st1.d_rss key
          (dictSet (dictGetD st1.d_rss key []) runid
            (rl ++ [SampleRow.gb row])) }

def addSamples (runid : Nat) : AggState → List SampleRow → Except Unit AggState
  | st, [] => .ok st
  | st, row :: rest =>
    match addSample runid st row with
    | .error e => .error e
    | .ok st1 => addSamples runid st1 rest

structure RunData where
  runid : Nat
  listing : List (String × Option String)
  samples : Option (List SampleRow)
deriving DecidableEq

/-- The body of `main`'s per-run loop. -/
def processRun (st : AggState) (r : RunData) : Except Unit AggState :=
  let st1 := r.listing.foldl (declareIdentity r.runid) st
  match r.samples with
  | none => .ok st1
  | some rows => addSamples r.runid st1 rows

def aggRuns : AggState → List RunData → Except Unit AggState
  | st, [] => .ok st
  | st, r :: rest =>
    match processRun st r with
    | .error e => .error e
    | .ok st1 => aggRuns st1 rest

/-- The whole aggregation loop over the gathered runs. -/
def aggregate (runs : List RunData) : Except Unit AggState :=
  aggRuns initState runs

def declaredKeys (listing : List (String × Option String)) : List String :=
  listing.map fun row => keyOf row.2 row.1

/-- Sample rows of one run that fall under a given grouping key. -/
def rowsFor (r : RunData) (key : String) : List SampleRow :=
  (r.samples.getD []).filter fun row => sampleKey row = key

/-- Every sample row's identity appears in the same run's jobs listing —
guaranteed in the program because the memprof query joins on `jobs`. -/
abbrev wfRun (r : RunData) : Prop :=
  ∀ row ∈ r.samples.getD [], sampleKey row ∈ declaredKeys r.listing

/-! ### Lemmas about the declaration phase -/

theorem declare_self (runid : Nat) (st : AggState)
    (row : String × Option String) :
    timesEntry (declareIdentity runid st row) (keyOf row.2 row.1) runid
        = some [] ∧
    rssEntry (declareIdentity runid st row) (keyOf row.2 row.1) runid
        = some [] := by
  constructor <;>
    simp [timesEntry, rssEntry, declareIdentity, dictGetD,
      dictGet_dictSet_self]

theorem declare_keeps_empty (runid : Nat) (st : AggState)
    (row : String × Option String) (key : String)
    (ht : timesEntry st key runid = some [])
    (hr : rssEntry st key runid = some []) :
    timesEntry (declareIdentity runid st row) key runid = some [] ∧
    rssEntry (declareIdentity runid st row) key runid = some [] := by
  by_cases hk : keyOf row.2 row.1 = key
  · exact hk ▸ declare_self runid st row
  · constructor
    · simpa [timesEntry, declareIdentity, dictGetD,
        dictGet_dictSet_ne _ _ _ _ (Ne.symm hk)] using ht
    · simpa [rssEntry, declareIdentity, dictGetD,
        dictGet_dictSet_ne _ _ _ _ (Ne.symm hk)] using hr

theorem declare_other_run (runid' runid : Nat) (h : runid' ≠ runid)
    (st : AggState) (row : String × Option String) (key : String) :
    timesEntry (declareIdentity runid' st row) key runid
        = timesEntry st key runid ∧
    rssEntry (declareIdentity runid' st row) key runid
        = rssEntry st key runid := by
  by_cases hk : keyOf row.2 row.1 = key
  · subst hk
    constructor
    · simp [timesEntry, declareIdentity, dictGetD, dictGet_dictSet_self,
        dictGet_dictSet_ne _ _ _ _ (Ne.symm h)]
    · simp [rssEntry, declareIdentity, dictGetD, dictGet_dictSet_self,
        dictGet_dictSet_ne _ _ _ _ (Ne.symm h)]
  · constructor
    · simp [timesEntry, declareIdentity, dictGetD,
        dictGet_dictSet_ne _ _ _ _ (Ne.symm hk)]
    · simp [rssEntry, declareIdentity, dictGetD,
        dictGet_dictSet_ne _ _ _ _ (Ne.symm hk)]

theorem fold_keeps_empty (runid : Nat) (key : String) :
    ∀ (listing : List (String × Option String)) (st : AggState),
      timesEntry st key runid = some [] →
      rssEntry st key runid = some [] →
      timesEntry (listing.foldl (declareIdentity runid) st) key runid
          = some [] ∧
      rssEntry (listing.foldl (declareIdentity runid) st) key runid
          = some []
  | [], st, ht, hr => ⟨ht, hr⟩
  | row :: rest, st, ht, hr => by
    obtain ⟨ht', hr'⟩ := declare_keeps_empty runid st row key ht hr
    exact fold_keeps_empty runid key rest _ ht' hr'

theorem fold_declares (runid : Nat) (key : String) :
    ∀ (listing : List (String × Option String)) (st : AggState),
      key ∈ declaredKeys listing →
      timesEntry (listing.foldl (declareIdentity runid) st) key runid
          = some [] ∧
      rssEntry (listing.foldl (declareIdentity runid) st) key runid
          = some []
  | [], _, h => by simp [declaredKeys] at h
  | row :: rest, st, h => by
    simp only [declaredKeys, List.map_cons, List.mem_cons] at h
    rcases h with hk | hk
    · subst hk
      simp only [List.foldl_cons]
      obtain ⟨ht, hr⟩ := declare_self runid st row
      exact fold_keeps_empty runid _ rest _ ht hr
    · simp only [List.foldl_cons]
      exact fold_declares runid key rest _ hk

theorem fold_other_run (runid' runid : Nat) (h : runid' ≠ runid)
    (key : String) :
    ∀ (listing : List (String × Option String)) (st : AggState),
      timesEntry (listing.foldl (declareIdentity runid') st) key runid
          = timesEntry st key runid ∧
      rssEntry (listing.foldl (declareIdentity runid') st) key runid
          = rssEntry st key runid
  | [], st => ⟨rfl, rfl⟩
  | row :: rest, st => by
    obtain ⟨ht, hr⟩ := declare_other_run runid' runid h st row key
    obtain ⟨ht', hr'⟩ := fold_other_run runid' runid h key rest
      (declareIdentity runid' st row)
    exact ⟨ht'.trans ht, hr'.trans hr⟩

/-! ### Lemmas about the sample phase -/

theorem addSample_eq (runid : Nat) (st : AggState) (row : SampleRow)
    (tl rl : List ℚ)
    (ht : timesEntry st (sampleKey row) runid = some tl)
    (hr : rssEntry st (sampleKey row) runid = some rl) :
    addSample runid st row = .ok
      { st with
        d_times := dictSet st.d_times (sampleKey row)
          (dictSet (dictGetD st.d_times (sampleKey row) []) runid
            (tl ++ [SampleRow.t row]))
        d_rss := dictSet st.d_rss (sampleKey row)
          (dictSet (dictGetD st.d_rss (sampleKey row) []) runid
            (rl ++ [SampleRow.gb row])) } := by
  simp only [timesEntry] at ht
  simp only [rssEntry] at hr
  unfold addSample
  dsimp only
  rw [ht]
  dsimp only
  rw [hr]

theorem addSample_self (runid : Nat) (st : AggState) (row : SampleRow)
    (tl rl : List ℚ)
    (ht : timesEntry st (sampleKey row) runid = some tl)
    (hr : rssEntry st (sampleKey row) runid = some rl) :
    ∃ st', addSample runid st row = .ok st' ∧
      timesEntry st' (sampleKey row) runid = some (tl ++ [SampleRow.t row]) ∧
      rssEntry st' (sampleKey row) runid = some (rl ++ [SampleRow.gb row]) := by
  refine ⟨_, addSample_eq runid st row tl rl ht hr, ?_, ?_⟩
  · simp [timesEntry, dictGetD, dictGet_dictSet_self]
  · simp [rssEntry, dictGetD, dictGet_dictSet_self]

theorem addSample_preserves (runid' runid : Nat) (st : AggState)
    (row : SampleRow) (key : String)
    (h : runid' ≠ runid ∨ sampleKey row ≠ key) (st' : AggState)
    (hok : addSample runid' st row = .ok st') :
    timesEntry st' key runid = timesEntry st key runid ∧
    rssEntry st' key runid = rssEntry st key runid := by
  unfold addSample at hok
  dsimp only at hok
  cases hm1 : dictGet (dictGetD st.d_times (sampleKey row) []) runid' with
  | none => rw [hm1] at hok; exact absurd hok (by simp)
  | some tl =>
    rw [hm1] at hok
    dsimp only at hok
    cases hm2 : dictGet (dictGetD st.d_rss (sampleKey row) []) runid' with
    | none => rw [hm2] at hok; exact absurd hok (by simp)
    | some rl =>
      rw [hm2] at hok
      simp only [Except.ok.injEq] at hok
      subst hok
      by_cases hk : sampleKey row = key
      · subst hk
        rcases h with h | h
        · constructor
          · simp [timesEntry, dictGetD, dictGet_dictSet_self,
              dictGet_dictSet_ne _ _ _ _ (Ne.symm h)]
          · simp [rssEntry, dictGetD, dictGet_dictSet_self,
              dictGet_dictSet_ne _ _ _ _ (Ne.symm h)]
        · exact absurd rfl h
      · constructor
        · simp [timesEntry, dictGetD,
            dictGet_dictSet_ne _ _ _ _ (Ne.symm hk)]
        · simp [rssEntry, dictGetD,
            dictGet_dictSet_ne _ _ _ _ (Ne.symm hk)]

theorem addSamples_self (runid : Nat) (key : String) :
    ∀ (rows : List SampleRow) (st : AggState) (tl rl : List ℚ),
      timesEntry st key runid = some tl →
      rssEntry st key runid = some rl →
      ∀ st', addSamples runid st rows = .ok st' →
      timesEntry st' key runid = some
        (tl ++ (rows.filter fun row => sampleKey row = key).map SampleRow.t) ∧
      rssEntry st' key runid = some
        (rl ++ (rows.filter fun row => sampleKey row = key).map SampleRow.gb)
  | [], st, tl, rl, ht, hr, st', hok => by
    simp only [addSamples, Except.ok.injEq] at hok
    subst hok
    simp [ht, hr]
  | row :: rest, st, tl, rl, ht, hr, st', hok => by
    by_cases hk : sampleKey row = key
    · subst hk
      obtain ⟨st1, haddeq, ht1, hr1⟩ := addSample_self runid st row tl rl ht hr
      simp only [addSamples, haddeq] at hok
      obtain ⟨ht2, hr2⟩ := addSamples_self runid (sampleKey row) rest st1 _ _
        ht1 hr1 st' hok
      constructor
      · rw [ht2, List.filter_cons, if_pos (by simp)]
        simp
      · rw [hr2, List.filter_cons, if_pos (by simp)]
        simp
    · cases ha : addSample runid st row with
      | error e =>
        rw [addSamples, ha] at hok
        exact absurd hok (by simp)
      | ok st1 =>
        have hpres := addSample_preserves runid runid st row key (Or.inr hk)
          st1 ha
        simp only [addSamples, ha] at hok
        obtain ⟨ht2, hr2⟩ := addSamples_self runid key rest st1 tl rl
          (hpres.1.trans ht) (hpres.2.trans hr) st' hok
        constructor
        · rw [ht2, List.filter_cons, if_neg (by simpa using hk)]
        · rw [hr2, List.filter_cons, if_neg (by simpa using hk)]

theorem addSamples_ok (runid : Nat) (keys : List String) :
    ∀ (rows : List SampleRow) (st : AggState),
      (∀ k ∈ keys,
        (timesEntry st k runid).isSome ∧ (rssEntry st k runid).isSome) →
      (∀ row ∈ rows, sampleKey row ∈ keys) →
      ∃ st', addSamples runid st rows = .ok st'
  | [], st, _, _ => ⟨st, rfl⟩
  | row :: rest, st, hinv, hmem => by
    obtain ⟨hts, hrs⟩ := hinv (sampleKey row) (hmem row (List.mem_cons_self _ _))
    obtain ⟨tl, ht⟩ := Option.isSome_iff_exists.mp hts
    obtain ⟨rl, hr⟩ := Option.isSome_iff_exists.mp hrs
    obtain ⟨st1, haddeq, ht1, hr1⟩ := addSample_self runid st row tl rl ht hr
    have hinv1 : ∀ k ∈ keys,
        (timesEntry st1 k runid).isSome ∧ (rssEntry st1 k runid).isSome := by
      intro k hkmem
      by_cases hk : sampleKey row = k
      · subst hk
        exact ⟨by simp [ht1], by simp [hr1]⟩
      · have hpres := addSample_preserves runid runid st row k (Or.inr hk)
          st1 haddeq
        obtain ⟨h1, h2⟩ := hinv k hkmem
        exact ⟨by rw [hpres.1]; exact h1, by rw [hpres.2]; exact h2⟩
    obtain ⟨st', hok⟩ := addSamples_ok runid keys rest st1 hinv1
      fun q hq => hmem q (List.mem_cons_of_mem _ hq)
    exact ⟨st', by simp only [addSamples, haddeq]; exact hok⟩

theorem addSamples_preserves (runid' runid : Nat) (key : String)
    (h : runid' ≠ runid) :
    ∀ (rows : List SampleRow) (st st' : AggState),
      addSamples runid' st rows = .ok st' →
      timesEntry st' key runid = timesEntry st key runid ∧
      rssEntry st' key runid = rssEntry st key runid
  | [], st, st', hok => by
    simp only [addSamples, Except.ok.injEq] at hok
    subst hok
    exact ⟨rfl, rfl⟩
  | row :: rest, st, st', hok => by
    cases ha : addSample runid' st row with
    | error e =>
      rw [addSamples, ha] at hok
      exact absurd hok (by simp)
    | ok st1 =>
      have h1 := addSample_preserves runid' runid st row key (Or.inl h) st1 ha
      simp only [addSamples, ha] at hok
      have h2 := addSamples_preserves runid' runid key h rest st1 st' hok
      exact ⟨h2.1.trans h1.1, h2.2.trans h1.2⟩

/-! ### Lemmas about whole runs and the whole loop -/

theorem processRun_declared (st : AggState) (r : RunData) (key : String)
    (hkey : key ∈ declaredKeys r.listing) (st' : AggState)
    (hok : processRun st r = .ok st') :
    timesEntry st' key r.runid = some ((rowsFor r key).map SampleRow.t) ∧
    rssEntry st' key r.runid = some ((rowsFor r key).map SampleRow.gb) := by
  unfold processRun at hok
  dsimp only at hok
  obtain ⟨ht, hr⟩ := fold_declares r.runid key r.listing st hkey
  cases hs : r.samples with
  | none =>
    rw [hs] at hok
    simp only [Except.ok.injEq] at hok
    subst hok
    simp [rowsFor, hs, ht, hr]
  | some rows =>
    rw [hs] at hok
    dsimp only at hok
    obtain ⟨h1, h2⟩ := addSamples_self r.runid key rows _ [] [] ht hr st' hok
    simp only [rowsFor, hs, Option.getD_some]
    simpa using ⟨h1, h2⟩

theorem processRun_preserves (st : AggState) (r : RunData) (key : String)
    (runid : Nat) (hrun : r.runid ≠ runid) (st' : AggState)
    (hok : processRun st r = .ok st') :
    timesEntry st' key runid = timesEntry st key runid ∧
    rssEntry st' key runid = rssEntry st key runid := by
  unfold processRun at hok
  dsimp only at hok
  obtain ⟨hf1, hf2⟩ := fold_other_run r.runid runid hrun key r.listing st
  cases hs : r.samples with
  | none =>
    rw [hs] at hok
    simp only [Except.ok.injEq] at hok
    subst hok
    exact ⟨hf1, hf2⟩
  | some rows =>
    rw [hs] at hok
    dsimp only at hok
    have h2 := addSamples_preserves r.runid runid key hrun rows _ st' hok
    exact ⟨h2.1.trans hf1, h2.2.trans hf2⟩

theorem processRun_ok (st : AggState) (r : RunData) (hwf : wfRun r) :
    ∃ st', processRun st r = .ok st' := by
  unfold processRun
  dsimp only
  cases hs : r.samples with
  | none => exact ⟨_, rfl⟩
  | some rows =>
    have hinv : ∀ k ∈ declaredKeys r.listing,
        (timesEntry (r.listing.foldl (declareIdentity r.runid) st)
          k r.runid).isSome ∧
        (rssEntry (r.listing.foldl (declareIdentity r.runid) st)
          k r.runid).isSome := by
      intro k hk
      obtain ⟨h1, h2⟩ := fold_declares r.runid k r.listing st hk
      exact ⟨by simp [h1], by simp [h2]⟩
    have hmem : ∀ row ∈ rows, sampleKey row ∈ declaredKeys r.listing := by
      intro row hrow
      exact hwf row (by simp [hs, hrow])
    exact addSamples_ok r.runid (declaredKeys r.listing) rows _ hinv hmem

theorem aggRuns_preserves (runid : Nat) (key : String) :
    ∀ (rl : List RunData) (st st' : AggState),
      (∀ r ∈ rl, r.runid ≠ runid) →
      aggRuns st rl = .ok st' →
      timesEntry st' key runid = timesEntry st key runid ∧
      rssEntry st' key runid = rssEntry st key runid
  | [], st, st', _, hok => by
    simp only [aggRuns, Except.ok.injEq] at hok
    subst hok
    exact ⟨rfl, rfl⟩
  | r :: rest, st, st', hne, hok => by
    cases hp : processRun st r with
    | error e =>
      rw [aggRuns, hp] at hok
      exact absurd hok (by simp)
    | ok st1 =>
      have h1 := processRun_preserves st r key runid
        (hne r (List.mem_cons_self _ _)) st1 hp
      simp only [aggRuns, hp] at hok
      have h2 := aggRuns_preserves runid key rest st1 st'
        (fun q hq => hne q (List.mem_cons_of_mem _ hq)) hok
      exact ⟨h2.1.trans h1.1, h2.2.trans h1.2⟩

theorem aggRuns_ok :
    ∀ (rl : List RunData) (st : AggState), (∀ r ∈ rl, wfRun r) →
      ∃ st', aggRuns st rl = .ok st'
  | [], st, _ => ⟨st, rfl⟩
  | r :: rest, st, hwf => by
    obtain ⟨st1, hp⟩ := processRun_ok st r (hwf r (List.mem_cons_self _ _))
    obtain ⟨st', hok⟩ := aggRuns_ok rest st1
      fun q hq => hwf q (List.mem_cons_of_mem _ hq)
    exact ⟨st', by simp only [aggRuns, hp]; exact hok⟩

theorem aggRuns_append (ys : List RunData) :
    ∀ (xs : List RunData) (st : AggState),
      aggRuns st (xs ++ ys) = match aggRuns st xs with
        | .error e => .error e
        | .ok st1 => aggRuns st1 ys
  | [], st => rfl
  | x :: xs, st => by
    simp only [List.cons_append, aggRuns]
    cases processRun st x with
    | error e => rfl
    | ok st1 => exact aggRuns_append ys xs st1

/-- After full aggregation, the series stored for a declared key of run `r`
is exactly `r`'s sample rows for that key, in arrival order. -/
theorem aggregate_entry (runs : List RunData)
    (hwf : ∀ r ∈ runs, wfRun r)
    (hnd : (runs.map RunData.runid).Nodup)
    (r : RunData) (hr : r ∈ runs) (key : String)
    (hkey : key ∈ declaredKeys r.listing) :
    ∃ st, aggregate runs = .ok st ∧
      timesEntry st key r.runid = some ((rowsFor r key).map SampleRow.t) ∧
      rssEntry st key r.runid = some ((rowsFor r key).map SampleRow.gb) := by
  obtain ⟨l1, l2, hsplit⟩ := List.append_of_mem hr
  subst hsplit
  have hnd2 : ∀ q ∈ l2, q.runid ≠ r.runid := by
    intro q hq
    simp only [List.map_append, List.map_cons] at hnd
    have htail := List.Nodup.of_append_right hnd
    rw [List.nodup_cons] at htail
    intro he
    exact htail.1 (he ▸ List.mem_map_of_mem RunData.runid hq)
  have hwf1 : ∀ q ∈ l1, wfRun q := fun q hq => hwf q (by simp [hq])
  obtain ⟨st1, h1⟩ := aggRuns_ok l1 initState hwf1
  obtain ⟨st2, h2⟩ := processRun_ok st1 r (hwf r (by simp))
  obtain ⟨hte, hre⟩ := processRun_declared st1 r key hkey st2 h2
  have hwf2 : ∀ q ∈ l2, wfRun q := fun q hq => hwf q (by simp [hq])
  obtain ⟨st3, h3⟩ := aggRuns_ok l2 st2 hwf2
  obtain ⟨hp1, hp2⟩ := aggRuns_preserves r.runid key l2 st2 st3 hnd2 h3
  refine ⟨st3, ?_, hp1.trans hte, hp2.trans hre⟩
  unfold aggregate
  rw [aggRuns_append (r :: l2) l1 initState, h1]
  dsimp only
  simp only [aggRuns, h2]
  exact h3

/-! ### Claims C5-C9 about the aggregation -/

/-- C5: every (identity, run) pair declared in a run's jobs listing is
present after aggregation; when the run contributed zero sample rows for
that identity — including the missing-memprof-table case — the entry is
the empty series, not absent, and the remaining runs are still
processed. -/
theorem declared_identity_entry_present (runs : List RunData)
    (hwf : ∀ r ∈ runs, wfRun r)
    (hnd : (runs.map RunData.runid).Nodup)
    (r : RunData) (hr : r ∈ runs)
    (cmd : String) (cat : Option String) (hdecl : (cmd, cat) ∈ r.listing) :
    ∃ st, aggregate runs = .ok st ∧
      ∃ lt lr, timesEntry st (keyOf cat cmd) r.runid = some lt ∧
        rssEntry st (keyOf cat cmd) r.runid = some lr ∧
        (rowsFor r (keyOf cat cmd) = [] → lt = [] ∧ lr = []) := by
  have hkey : keyOf cat cmd ∈ declaredKeys r.listing := by
    simp only [declaredKeys, List.mem_map]
    exact ⟨(cmd, cat), hdecl, rfl⟩
  obtain ⟨st, hagg, ht, hre⟩ := aggregate_entry runs hwf hnd r hr _ hkey
  exact ⟨st, hagg, _, _, ht, hre, fun hz => by simp [hz]⟩

def exC5 : List RunData :=
  [⟨1, [("t1", some "c")], none⟩,
   ⟨2, [("t1", some "c")], some [("t1", some "c", 5, 2)]⟩]

theorem declared_identity_entry_present_witness :
    ((∀ r ∈ exC5, wfRun r) ∧ (exC5.map RunData.runid).Nodup ∧
      (⟨1, [("t1", some "c")], none⟩ : RunData) ∈ exC5 ∧
      ("t1", some "c") ∈ (⟨1, [("t1", some "c")], none⟩ : RunData).listing) ∧
    ∃ st, aggregate exC5 = .ok st ∧
      ∃ lt lr, timesEntry st (keyOf (some "c") "t1") 1 = some lt ∧
        rssEntry st (keyOf (some "c") "t1") 1 = some lr ∧
        (rowsFor ⟨1, [("t1", some "c")], none⟩ (keyOf (some "c") "t1") = [] →
          lt = [] ∧ lr = []) :=
  ⟨⟨by decide, by decide, by decide, by decide⟩,
    declared_identity_entry_present exC5 (by decide) (by decide)
      ⟨1, [("t1", some "c")], none⟩ (by decide) "t1" (some "c") (by decide)⟩

/-- C6: when a run's sample rows are supplied in ascending relative_time
order, the stored series for each of its declared identities has
non-decreasing times: the aggregator appends in arrival order and never
re-sorts. -/
theorem series_times_sorted (runs : List RunData)
    (hwf : ∀ r ∈ runs, wfRun r)
    (hnd : (runs.map RunData.runid).Nodup)
    (r : RunData) (hr : r ∈ runs)
    (hsort : (r.samples.getD []).Pairwise
      fun x y => SampleRow.t x ≤ SampleRow.t y)
    (cmd : String) (cat : Option String) (hdecl : (cmd, cat) ∈ r.listing) :
    ∃ st, aggregate runs = .ok st ∧
      timesEntry st (keyOf cat cmd) r.runid =
        some ((rowsFor r (keyOf cat cmd)).map SampleRow.t) ∧
      ((rowsFor r (keyOf cat cmd)).map SampleRow.t).Pairwise (· ≤ ·) := by
  have hkey : keyOf cat cmd ∈ declaredKeys r.listing := by
    simp only [declaredKeys, List.mem_map]
    exact ⟨(cmd, cat), hdecl, rfl⟩
  obtain ⟨st, hagg, ht, _⟩ := aggregate_entry runs hwf hnd r hr _ hkey
  refine ⟨st, hagg, ht, ?_⟩
  rw [List.pairwise_map]
  exact hsort.filter _

def rC6 : RunData :=
  ⟨4, [("t1", some "c")], some [("t1", some "c", 1, 5), ("t1", some "c", 2, 6)]⟩

def exC6 : List RunData := [rC6]

theorem series_times_sorted_witness :
    ((∀ r ∈ exC6, wfRun r) ∧ (exC6.map RunData.runid).Nodup ∧
      rC6 ∈ exC6 ∧
      (rC6.samples.getD []).Pairwise
        (fun x y => SampleRow.t x ≤ SampleRow.t y) ∧
      ("t1", some "c") ∈ rC6.listing) ∧
    ∃ st, aggregate exC6 = .ok st ∧
      timesEntry st (keyOf (some "c") "t1") rC6.runid =
        some ((rowsFor rC6 (keyOf (some "c") "t1")).map SampleRow.t) ∧
      ((rowsFor rC6 (keyOf (some "c") "t1")).map SampleRow.t).Pairwise
        (· ≤ ·) :=
  ⟨⟨by decide, by decide, by decide, by decide, by decide⟩,
    series_times_sorted exC6 (by decide) (by decide) rC6 (by decide)
      (by decide) "t1" (some "c") (by decide)⟩

/-- C7: the distinct identities (category "a", command "b_c") and
(category "a_b", command "c") share the composite key "a_b_c", so their
declarations and sample rows are merged into one aggregated entry. -/
theorem composite_key_collision :
    ((some "a" : Option String), "b_c") ≠ ((some "a_b" : Option String), "c") ∧
    keyOf (some "a") "b_c" = keyOf (some "a_b") "c" ∧
    (aggregate [⟨1, [("b_c", some "a"), ("c", some "a_b")],
        some [("b_c", some "a", 1, 5), ("c", some "a_b", 2, 7)]⟩]).toOption.map
      (fun st => (st.d_times.length,
        timesEntry st "a_b_c" 1, rssEntry st "a_b_c" 1))
      = some (1, some [1, 2], some [5, 7]) := by decide

/-- C8: recording a declared row whose category is SQL NULL or the empty
string (Python falsy) stores the sentinel label "other" for its key. -/
theorem falsy_category_label_other (runid : Nat) (st : AggState)
    (cmd : String) (cat : Option String)
    (h : cat = none ∨ cat = some "") :
    dictGet (declareIdentity runid st (cmd, cat)).d_cat (keyOf cat cmd)
      = some "other" := by
  have hl : catLabel cat = "other" := by
    rcases h with h | h <;> simp [h, catLabel]
  simp [declareIdentity, hl, dictGet_dictSet_self]

theorem falsy_category_label_other_witness :
    ((none : Option String) = none ∨ (none : Option String) = some "") ∧
    dictGet (declareIdentity 3 initState ("x", none)).d_cat (keyOf none "x")
      = some "other" :=
  ⟨Or.inl rfl, falsy_category_label_other 3 initState "x" none (Or.inl rfl)⟩

/-- C9: aggregation is a deterministic function of the input row sets:
two executions on identical inputs give identical aggregated content. -/
theorem aggregation_deterministic (runs1 runs2 : List RunData)
    (h : runs1 = runs2) : aggregate runs1 = aggregate runs2 := by rw [h]

theorem aggregation_deterministic_witness :
    ([⟨1, [("t", some "c")], none⟩] : List RunData)
        = [⟨1, [("t", some "c")], none⟩] ∧
    aggregate [⟨1, [("t", some "c")], none⟩]
        = aggregate [⟨1, [("t", some "c")], none⟩] :=
  ⟨rfl, aggregation_deterministic _ _ rfl⟩

/-! ### `get_artefacts` (plotter.py lines 82-100)

The workflow's success-run listing and the outcome of each artifact
download are supplied as data: `valid` records whether
`download_artefact` returned a usable archive (HTTP 200 and containing
`tsp_db.sqlite3`). -/

structure GhArtifact where
  name : String
  valid : Bool
deriving DecidableEq

structure GhRun where
  run_number : Nat
  head_branch : String
  artifacts : List GhArtifact
deriving DecidableEq

/-- The inner `for gha in run.get_artifacts()` loop breaks at the first
artifact whose name matches. -/
def firstArtefact (arts : List GhArtifact) (name : String) :
    Option GhArtifact :=
  arts.find? fun g => g.name = name

/-- Effect of one outer-loop body on the `runs` dict once the branch
filter has passed. -/
def considerRun (runs : List (Nat × GhRun)) (r : GhRun) (artefact : String) :
    List (Nat × GhRun) :=
  match firstArtefact r.artifacts artefact with
  | some g => if g.valid then dictSet runs r.run_number r else runs
  | none => runs

def get_artefacts_loop (nruns : Nat) (artefact : String)
    (fil : List String) :
    List GhRun → List (Nat × GhRun) → List (Nat × GhRun)
  | [], runs => runs
  | r :: rest, runs =>
    if fil ≠ [] ∧ r.head_branch ∉ fil then
      get_artefacts_loop nruns artefact fil rest runs
    else
      let runs' := considerRun runs r artefact
      if runs'.length = nruns then runs'
      else get_artefacts_loop nruns artefact fil rest runs'

/-- Shallow embedding of `get_artefacts`. -/
def get_artefacts (nruns : Nat) (runList : List GhRun) (artefact : String)
    (fil : List String) : List (Nat × GhRun) :=
  get_artefacts_loop nruns artefact fil runList []

theorem considerRun_length (runs : List (Nat × GhRun)) (r : GhRun)
    (artefact : String) :
    (considerRun runs r artefact).length ≤ runs.length + 1 := by
  unfold considerRun
  cases firstArtefact r.artifacts artefact with
  | none => simp
  | some g =>
    by_cases hv : g.valid
    · simp only [hv, if_true]
      exact dictSet_length_le runs r.run_number r
    · simp [hv]

theorem considerRun_mem (runs : List (Nat × GhRun)) (r : GhRun)
    (artefact : String) (p : Nat × GhRun)
    (hp : p ∈ considerRun runs r artefact) :
    p ∈ runs ∨ (p = (r.run_number, r) ∧
      ∃ g, firstArtefact r.artifacts artefact = some g ∧ g.valid = true) := by
  unfold considerRun at hp
  cases hfa : firstArtefact r.artifacts artefact with
  | none =>
    rw [hfa] at hp
    exact Or.inl hp
  | some g =>
    rw [hfa] at hp
    dsimp only at hp
    by_cases hv : g.valid
    · rw [if_pos hv] at hp
      rcases mem_dictSet runs r.run_number r p hp with h | h
      · exact Or.inl h
      · exact Or.inr ⟨h, g, rfl, hv⟩
    · rw [if_neg hv] at hp
      exact Or.inl hp

theorem get_artefacts_loop_invariant (nruns : Nat) (artefact : String)
    (fil : List String) :
    ∀ (rl : List GhRun) (acc : List (Nat × GhRun)),
      acc.length < nruns →
      (∀ p ∈ acc, (fil = [] ∨ p.2.head_branch ∈ fil) ∧
        (∃ g, firstArtefact p.2.artifacts artefact = some g ∧
          g.valid = true) ∧
        p.1 = p.2.run_number) →
      (get_artefacts_loop nruns artefact fil rl acc).length ≤ nruns ∧
      ∀ p ∈ get_artefacts_loop nruns artefact fil rl acc,
        (fil = [] ∨ p.2.head_branch ∈ fil) ∧
        (∃ g, firstArtefact p.2.artifacts artefact = some g ∧
          g.valid = true) ∧
        p.1 = p.2.run_number
  | [], acc, hlt, hinv => by
    simp only [get_artefacts_loop]
    exact ⟨le_of_lt hlt, hinv⟩
  | r :: rest, acc, hlt, hinv => by
    by_cases hf : fil ≠ [] ∧ r.head_branch ∉ fil
    · simp only [get_artefacts_loop, if_pos hf]
      exact get_artefacts_loop_invariant nruns artefact fil rest acc hlt hinv
    · simp only [get_artefacts_loop, if_neg hf]
      push_neg at hf
      have hbranch : fil = [] ∨ r.head_branch ∈ fil := by
        by_cases hfe : fil = []
        · exact Or.inl hfe
        · exact Or.inr (hf hfe)
      have hmemprop : ∀ p ∈ considerRun acc r artefact,
          (fil = [] ∨ p.2.head_branch ∈ fil) ∧
          (∃ g, firstArtefact p.2.artifacts artefact = some g ∧
            g.valid = true) ∧
          p.1 = p.2.run_number := by
        intro p hp
        rcases considerRun_mem acc r artefact p hp with hold | ⟨hpe, hg⟩
        · exact hinv p hold
        · subst hpe
          exact ⟨hbranch, hg, rfl⟩
      have hlen' : (considerRun acc r artefact).length ≤ nruns := by
        have := considerRun_length acc r artefact
        omega
      by_cases hstop : (considerRun acc r artefact).length = nruns
      · rw [if_pos hstop]
        exact ⟨le_of_eq hstop, hmemprop⟩
      · rw [if_neg hstop]
        exact get_artefacts_loop_invariant nruns artefact fil rest _
          (lt_of_le_of_ne hlen' hstop) hmemprop

/-- C10 counterexample: with `nruns = 0` the `len(runs) == nruns` stop
check can no longer fire once a run has been added, so a single valid run
already yields one entry — more than the requested zero. -/
theorem get_artefacts_nruns_zero_excess :
    (get_artefacts 0 [⟨1, "main", [⟨"run-log", true⟩]⟩] "run-log" []).length
        = 1 ∧
    ¬ ((get_artefacts 0 [⟨1, "main", [⟨"run-log", true⟩]⟩]
        "run-log" []).length ≤ 0) := by decide

/-- C10 (amended): for every requested run count of at least one, the
returned mapping has at most `nruns` entries, each keyed by its run
number and corresponding to a run that passed the branch filter and whose
first artifact named `artefact` downloaded as a valid archive. -/
theorem get_artefacts_bounded (nruns : Nat) (h : 1 ≤ nruns)
    (runList : List GhRun) (artefact : String) (fil : List String) :
    (get_artefacts nruns runList artefact fil).length ≤ nruns ∧
    ∀ p ∈ get_artefacts nruns runList artefact fil,
      (fil = [] ∨ p.2.head_branch ∈ fil) ∧
      (∃ g, firstArtefact p.2.artifacts artefact = some g ∧
        g.valid = true) ∧
      p.1 = p.2.run_number :=
  get_artefacts_loop_invariant nruns artefact fil runList []
    (by simpa using h) (by intro p hp; simp at hp)

theorem get_artefacts_bounded_witness :
    1 ≤ 1 ∧
    (get_artefacts 1 [⟨1, "main", [⟨"run-log", true⟩]⟩]
        "run-log" []).length ≤ 1 ∧
    ∀ p ∈ get_artefacts 1 [⟨1, "main", [⟨"run-log", true⟩]⟩] "run-log" [],
      (([] : List String) = [] ∨ p.2.head_branch ∈ ([] : List String)) ∧
      (∃ g, firstArtefact p.2.artifacts "run-log" = some g ∧
        g.valid = true) ∧
      p.1 = p.2.run_number :=
  ⟨by decide,
    get_artefacts_bounded 1 (by decide) [⟨1, "main", [⟨"run-log", true⟩]⟩]
      "run-log" []⟩

end MemprofPlotter
